import Mathlib

/-!
Shallow embedding of `text-table-rs` (`src/lib.rs`) and verification of its
specification.

Modelling conventions, matching the source:

* A table is a `List (List String)`: each cell is represented by the display
  string it renders to (`write!(string_buf, "{}", cell)`); per the library's
  contract cell rendering is deterministic and infallible, so passing the
  rendered strings directly loses nothing.
* `string_buf.len()` in Rust is the UTF-8 byte length of the rendered string,
  embedded as `cellLen` (`String.utf8ByteSize`).
* The writer is modelled at the granularity of the source's `write!` calls:
  each rendering function produces the list of string payloads it writes, in
  order.  A run against a fallible sink is `emitAll`.
* Panics (the ragged-row `panic!` in `widths` and the `usize` underflow in
  `render_text_line`'s `len - string_buf.len()`) are modelled as
  `Except.error ps`, where `ps` records the payloads already written to the
  sink before the abnormal termination.
-/

namespace TextTables

def CORNER_STR : String := "+"

def HORIZ_BORDER_STR : String := "-"

def VERT_BORDER_STR : String := "|"

def SPACE_STR : String := " "

def NEW_LINE_STR : String := "\n"

/-- Byte length of a rendered cell, mirroring Rust `string_buf.len()`
(UTF-8 byte count, not character count). -/
def cellLen (s : String) : Nat := s.utf8ByteSize

/-- The loop of `widths`: fold the remaining rows over the accumulated width
vector, panicking (`none`) at the first row whose length differs from
`row_len`; `widths[idx] = max(widths[idx], string_buf.len())`. -/
def widthsGo (rowLen : Nat) (acc : List Nat) : List (List String) → Option (List Nat)
  | [] => some acc
  | row :: rest =>
    if rowLen = row.length then
      widthsGo rowLen (List.zipWith (fun w c => max w (cellLen c)) acc row) rest
    else
      none

/-- Function `widths` from the source: empty table gives `vec![]`; otherwise the column
count is the first row's length, the accumulator starts at all zeros, and every
row (including the first) is folded in by `widthsGo`.  `none` models the
`panic!("rows must be the same length")`. -/
def widths (data : List (List String)) : Option (List Nat) :=
  match data with
  | [] => some []
  | r0 :: _ => widthsGo r0.length (List.replicate r0.length 0) data

/-- The per-column loop of `render_border_line`: for each width, `len + 2`
writes of `-` followed by one `+`. -/
def borderCols : List Nat → List String
  | [] => []
  | len :: rest => List.replicate (len + 2) HORIZ_BORDER_STR ++ [CORNER_STR] ++ borderCols rest

/-- Function `render_border_line` as its sequence of write payloads.  The guard
`lengths.len() == 0 || lengths[0] == 0` makes it write nothing. -/
def render_border_line (lengths : List Nat) : List String :=
  match lengths with
  | [] => []
  | l0 :: _ =>
    if l0 = 0 then []
    else CORNER_STR :: borderCols lengths ++ [NEW_LINE_STR]

/-- The write payloads one cell contributes in `render_text_line`, given that
`extra = len - cellLen cell` did not underflow: one write of `" {cell}"`, then
`extra + 1` writes of a space, then the vertical border. -/
def cellBlockPieces (cell : String) (len : Nat) : List String :=
  (SPACE_STR ++ cell) :: List.replicate (len - cellLen cell + 1) SPACE_STR ++ [VERT_BORDER_STR]

/-- The per-cell loop of `render_text_line` over `row.iter().zip(lengths)`.
`let extra = len - string_buf.len()` underflows (panics) when the cell is
longer than the column width; the error payload records what was already
written inside the loop before the abort. -/
def textCols : List (String × Nat) → Except (List String) (List String)
  | [] => Except.ok []
  | (cell, len) :: rest =>
    if cellLen cell ≤ len then
      match textCols rest with
      | Except.ok tail => Except.ok (cellBlockPieces cell len ++ tail)
      | Except.error ps => Except.error (cellBlockPieces cell len ++ ps)
    else
      Except.error []

/-- Function `render_text_line` as its sequence of write payloads: the degenerate guard,
then `|`, the zipped cell blocks, and a newline.  `Except.error ps` models the
underflow panic, with `ps` the payloads written before the abort. -/
def render_text_line (lengths : List Nat) (row : List String) :
    Except (List String) (List String) :=
  match lengths with
  | [] => Except.ok []
  | l0 :: _ =>
    if l0 = 0 then Except.ok []
    else
      match textCols (row.zip lengths) with
      | Except.ok body => Except.ok (VERT_BORDER_STR :: body ++ [NEW_LINE_STR])
      | Except.error ps => Except.error (VERT_BORDER_STR :: ps)

/-- The row loop of `render`: for each row, a text line then a border line. -/
def renderRows (ws : List Nat) : List (List String) → Except (List String) (List String)
  | [] => Except.ok []
  | row :: rest =>
    match render_text_line ws row with
    | Except.error ps => Except.error ps
    | Except.ok line =>
      match renderRows ws rest with
      | Except.error ps => Except.error (line ++ render_border_line ws ++ ps)
      | Except.ok tail => Except.ok (line ++ render_border_line ws ++ tail)

/-- Function `render`: compute `widths` first (its panic aborts before anything is
written), then a border line followed by the row loop.  The result is the full
sequence of write payloads, or on panic the payloads written before it. -/
def render (data : List (List String)) : Except (List String) (List String) :=
  match widths data with
  | none => Except.error []
  | some ws =>
    match renderRows ws data with
    | Except.error ps => Except.error (render_border_line ws ++ ps)
    | Except.ok body => Except.ok (render_border_line ws ++ body)

/-- The bytes a run writes to an infallible sink (also defined on the panic
outcome, where it is what was written before the abort). -/
def outBytes : Except (List String) (List String) → String
  | Except.ok ps => String.join ps
  | Except.error ps => String.join ps

/-- Output of `render` against an infallible sink; `none` when it panics. -/
def renderOut (data : List (List String)) : Option String :=
  match render data with
  | Except.ok ps => some (String.join ps)
  | Except.error _ => none

/-- The full border line as one string. -/
def borderLineStr (lengths : List Nat) : String := String.join (render_border_line lengths)

/-- The full text line as one string (on the panic outcome: the part written
before the abort). -/
def textLineOut (lengths : List Nat) (row : List String) : String :=
  outBytes (render_text_line lengths row)

/-- The payloads of a successfully rendered text line (junk value on panic). -/
def textPiecesOf (ws : List Nat) (row : List String) : List String :=
  match render_text_line ws row with
  | Except.ok ps => ps
  | Except.error _ => []

/-- A fallible sink: `fail n` is the error (if any) the sink returns on the
`n`-th write call.  `emitAll fail ps n out` performs the writes `ps` starting
at call index `n` with `out` already written, stopping at the first failure —
this is the behaviour the `?` operator gives the source.  Returns the result,
the index reached, and the bytes successfully written. -/
def emitAll (fail : Nat → Option ε) : List String → Nat → String → Except ε Unit × Nat × String
  | [], n, out => (Except.ok (), n, out)
  | s :: rest, n, out =>
    match fail n with
    | some e => (Except.error e, n, out)
    | none => emitAll fail rest (n + 1) (out ++ s)

/-- Running `render` against a fallible sink: `none` models the ragged-row panic
(which aborts the call stack rather than returning). -/
def renderToSink (fail : Nat → Option ε) (data : List (List String)) :
    Option (Except ε Unit × Nat × String) :=
  match render data with
  | Except.ok ps => some (emitAll fail ps 0 "")
  | Except.error _ => none

/-- Concatenation of `n` copies of a string. -/
def strRepl (n : Nat) (s : String) : String := String.join (List.replicate n s)

/-- The dash run of one column in a border line: `w + 2` dashes. -/
def dashBlock (w : Nat) : String := strRepl (w + 2) HORIZ_BORDER_STR

/-- The block one cell occupies between two vertical delimiters in a content
line: one space, the cell text, then `w - cellLen cell + 1` spaces. -/
def cellBlock (cell : String) (w : Nat) : String :=
  SPACE_STR ++ cell ++ strRepl (w - cellLen cell + 1) SPACE_STR

/-- Maximum, over all rows, of the byte length of the cell at column `i`. -/
def colMax (data : List (List String)) (i : Nat) : Nat :=
  (data.map (fun row => cellLen (row.getD i ""))).foldr max 0

/-- Number of newline characters in a string: the output consists of exactly
`k` newline-terminated lines iff it has `k` newlines and ends with one. -/
def countNewlines (s : String) : Nat := s.data.count '\n'

/-- Indices (in characters) at which character `c` occurs, starting count at `i`. -/
def charOcc (c : Char) : List Char → Nat → List Nat
  | [], _ => []
  | x :: xs, i => if x = c then i :: charOcc c xs (i + 1) else charOcc c xs (i + 1)

/-- Offsets (in bytes of the UTF-8 encoding) at which `c` occurs. -/
def byteOcc (c : Char) : List Char → Nat → List Nat
  | [], _ => []
  | x :: xs, i =>
    if x = c then i :: byteOcc c xs (i + x.utf8Size) else byteOcc c xs (i + x.utf8Size)

/-- Character offsets of `c` in `s`. -/
def charOffsets (c : Char) (s : String) : List Nat := charOcc c s.data 0

/-- Byte offsets of `c` in `s`. -/
def byteOffsets (c : Char) (s : String) : List Nat := byteOcc c s.data 0

/-- The byte offsets of the `k + 1` corner characters of a border line over
`k` column widths, starting at offset `n`: each column advances by `w + 3`. -/
def cornerPos (n : Nat) : List Nat → List Nat
  | [] => [n]
  | w :: rest => n :: cornerPos (n + w + 3) rest

/-! ### Lemmas about `widths` -/

theorem getD_replicate_zero (n i : Nat) : (List.replicate n (0 : Nat)).getD i 0 = 0 := by
  simp only [List.getD_eq_getElem?_getD, List.getElem?_replicate]
  split <;> rfl

theorem getD_zipWith_max :
    ∀ (acc : List Nat) (row : List String) (i : Nat), i < acc.length → i < row.length →
      (List.zipWith (fun w c => max w (cellLen c)) acc row).getD i 0 =
        max (acc.getD i 0) (cellLen (row.getD i "")) := by
  intro acc
  induction acc with
  | nil => intro row i h1 _; simp at h1
  | cons a as ih =>
    intro row i h1 h2
    cases row with
    | nil => simp at h2
    | cons r rs =>
      cases i with
      | zero => simp [List.zipWith]
      | succ j =>
        simp only [List.zipWith, List.getD_cons_succ]
        exact ih rs j (by simpa using h1) (by simpa using h2)

theorem widthsGo_length (data : List (List String)) :
    ∀ (rowLen : Nat) (acc ws : List Nat), acc.length = rowLen →
      widthsGo rowLen acc data = some ws → ws.length = rowLen := by
  induction data with
  | nil =>
    intro rowLen acc ws hacc h
    simp only [widthsGo, Option.some.injEq] at h
    subst h; exact hacc
  | cons row rest ih =>
    intro rowLen acc ws hacc h
    simp only [widthsGo] at h
    by_cases hr : rowLen = row.length
    · rw [if_pos hr] at h
      exact ih rowLen _ ws (by simp [List.length_zipWith, hacc, hr]) h
    · rw [if_neg hr] at h; cases h

theorem widthsGo_rect (data : List (List String)) :
    ∀ (rowLen : Nat) (acc ws : List Nat), widthsGo rowLen acc data = some ws →
      ∀ row ∈ data, row.length = rowLen := by
  induction data with
  | nil => intro _ _ _ _ row hrow; simp at hrow
  | cons row0 rest ih =>
    intro rowLen acc ws h row hrow
    simp only [widthsGo] at h
    by_cases hr : rowLen = row0.length
    · rw [if_pos hr] at h
      rcases List.mem_cons.mp hrow with rfl | hmem
      · exact hr.symm
      · exact ih rowLen _ ws h row hmem
    · rw [if_neg hr] at h; cases h

theorem widthsGo_ragged (data : List (List String)) :
    ∀ (rowLen : Nat) (acc : List Nat) (row : List String),
      row ∈ data → row.length ≠ rowLen → widthsGo rowLen acc data = none := by
  induction data with
  | nil => intro _ _ _ hrow; simp at hrow
  | cons row0 rest ih =>
    intro rowLen acc row hrow hne
    simp only [widthsGo]
    by_cases hr : rowLen = row0.length
    · rw [if_pos hr]
      rcases List.mem_cons.mp hrow with rfl | hmem
      · exact absurd hr.symm hne
      · exact ih rowLen _ row hmem hne
    · rw [if_neg hr]

theorem widthsGo_getD (data : List (List String)) :
    ∀ (rowLen : Nat) (acc ws : List Nat), acc.length = rowLen →
      widthsGo rowLen acc data = some ws → ∀ i, i < rowLen →
        ws.getD i 0 = max (acc.getD i 0) (colMax data i) := by
  induction data with
  | nil =>
    intro rowLen acc ws hacc h i hi
    simp only [widthsGo, Option.some.injEq] at h
    subst h
    simp [colMax]
  | cons row rest ih =>
    intro rowLen acc ws hacc h i hi
    simp only [widthsGo] at h
    by_cases hr : rowLen = row.length
    · rw [if_pos hr] at h
      have hlen : (List.zipWith (fun w c => max w (cellLen c)) acc row).length = rowLen := by
        simp [List.length_zipWith, hacc, hr]
      have := ih rowLen _ ws hlen h i hi
      rw [this, getD_zipWith_max acc row i (by omega) (by omega)]
      simp only [colMax, List.map_cons, List.foldr_cons]
      rw [Nat.max_assoc]
    · rw [if_neg hr] at h; cases h

theorem widths_length (data : List (List String)) (ws : List Nat)
    (h : widths data = some ws) : ws.length = (data.headD []).length := by
  cases data with
  | nil => simp only [widths, Option.some.injEq] at h; subst h; rfl
  | cons r0 rest =>
    simp only [widths] at h
    simpa using widthsGo_length (r0 :: rest) r0.length _ ws (by simp) h

theorem widths_rect (data : List (List String)) (ws : List Nat)
    (h : widths data = some ws) : ∀ row ∈ data, row.length = (data.headD []).length := by
  cases data with
  | nil => intro row hrow; simp at hrow
  | cons r0 rest =>
    simp only [widths] at h
    simpa using widthsGo_rect (r0 :: rest) r0.length _ ws h

theorem widths_getD (data : List (List String)) (ws : List Nat)
    (h : widths data = some ws) : ∀ i, i < ws.length → ws.getD i 0 = colMax data i := by
  cases data with
  | nil =>
    simp only [widths, Option.some.injEq] at h
    subst h; intro i hi; simp at hi
  | cons r0 rest =>
    intro i hi
    have hlen : ws.length = r0.length := by simpa using widths_length _ _ h
    simp only [widths] at h
    have := widthsGo_getD (r0 :: rest) r0.length _ ws (by simp) h i (by omega)
    rw [this, getD_replicate_zero]
    exact Nat.zero_max _

theorem cellLen_le_colMax (data : List (List String)) (row : List String) (i : Nat)
    (hrow : row ∈ data) : cellLen (row.getD i "") ≤ colMax data i := by
  induction data with
  | nil => simp at hrow
  | cons r0 rest ih =>
    simp only [colMax, List.map_cons, List.foldr_cons]
    rcases List.mem_cons.mp hrow with rfl | hmem
    · exact Nat.le_max_left _ _
    · exact Nat.le_trans (ih hmem) (Nat.le_max_right _ _)

/-- Every cell is at most its column's computed width: the key invariant for
the padding subtraction in `render_text_line`. -/
theorem widths_cell_le (data : List (List String)) (ws : List Nat)
    (h : widths data = some ws) (row : List String) (hrow : row ∈ data)
    (i : Nat) (hi : i < ws.length) : cellLen (row.getD i "") ≤ ws.getD i 0 := by
  rw [widths_getD data ws h i hi]
  exact cellLen_le_colMax data row i hrow

/-! ### String-level structure of the two line kinds -/

theorem str_length_data (s : String) : s.length = s.data.length := rfl

theorem utf8ByteSize_data (s : String) : s.utf8ByteSize = String.utf8Len s.data := by
  cases s; simp

theorem join_cons (s : String) (l : List String) :
    String.join (s :: l) = s ++ String.join l :=
  String.ext (by simp)

theorem join_append (l1 l2 : List String) :
    String.join (l1 ++ l2) = String.join l1 ++ String.join l2 :=
  String.ext (by simp)

theorem join_flatten (L : List (List String)) :
    String.join L.flatten = String.join (L.map String.join) := by
  induction L with
  | nil => rfl
  | cons l L ih => simp [join_append, join_cons, ih]

theorem flatten_replicate_single (n : Nat) (c : Char) :
    (List.replicate n [c]).flatten = List.replicate n c := by
  induction n with
  | zero => rfl
  | succ m ih => simp [List.replicate_succ, ih]

theorem strRepl_data (n : Nat) (s : String) :
    (strRepl n s).data = (List.replicate n s.data).flatten := by
  simp [strRepl]

theorem dashBlock_data (w : Nat) :
    (dashBlock w).data = List.replicate (w + 2) '-' := by
  rw [dashBlock, strRepl_data]
  exact flatten_replicate_single _ _

theorem dashBlock_length (w : Nat) : (dashBlock w).length = w + 2 := by
  rw [str_length_data, dashBlock_data, List.length_replicate]

theorem utf8Len_replicate (n : Nat) (c : Char) :
    String.utf8Len (List.replicate n c) = n * c.utf8Size := by
  induction n with
  | zero => simp
  | succ m ih => rw [List.replicate_succ, String.utf8Len_cons, ih]; ring

theorem dashBlock_byteSize (w : Nat) : (dashBlock w).utf8ByteSize = w + 2 := by
  rw [utf8ByteSize_data, dashBlock_data, utf8Len_replicate]
  have hd : ('-' : Char).utf8Size = 1 := by decide
  rw [hd, Nat.mul_one]

theorem cellBlock_data (cell : String) (w : Nat) :
    (cellBlock cell w).data =
      ' ' :: cell.data ++ List.replicate (w - cellLen cell + 1) ' ' := by
  simp [cellBlock, strRepl_data, SPACE_STR, flatten_replicate_single]

theorem cellBlock_byteSize (cell : String) (w : Nat) (h : cellLen cell ≤ w) :
    (cellBlock cell w).utf8ByteSize = w + 2 := by
  have hc : String.utf8Len cell.data = cellLen cell := (utf8ByteSize_data cell).symm
  rw [utf8ByteSize_data, cellBlock_data]
  simp only [List.cons_append, String.utf8Len_cons, String.utf8Len_append, utf8Len_replicate, hc]
  have hsp : (' ' : Char).utf8Size = 1 := by decide
  rw [hsp]
  omega

theorem borderCols_data (ws : List Nat) :
    ((borderCols ws).map String.data).flatten =
      (ws.map (fun w => List.replicate (w + 2) '-' ++ ['+'])).flatten := by
  induction ws with
  | nil => rfl
  | cons w rest ih =>
    simp only [borderCols, List.map_append, List.map_replicate, List.flatten_append,
      List.map_cons, List.flatten_cons]
    rw [ih]
    simp [HORIZ_BORDER_STR, CORNER_STR, flatten_replicate_single]

theorem render_border_line_nondeg (w0 : Nat) (rest : List Nat) (h0 : 0 < w0) :
    render_border_line (w0 :: rest) =
      CORNER_STR :: borderCols (w0 :: rest) ++ [NEW_LINE_STR] := by
  simp [render_border_line, Nat.pos_iff_ne_zero.mp h0]

theorem borderLineStr_eq (ws : List Nat) (h0 : 0 < ws.headD 0) :
    borderLineStr ws =
      CORNER_STR ++ String.join (ws.map fun w => dashBlock w ++ CORNER_STR) ++ NEW_LINE_STR := by
  cases ws with
  | nil => simp at h0
  | cons w0 rest =>
    apply String.ext
    rw [borderLineStr, render_border_line_nondeg w0 rest (by simpa using h0)]
    have hfun : (String.data ∘ fun w => dashBlock w ++ CORNER_STR) =
        fun w : Nat => List.replicate (w + 2) '-' ++ ['+'] := by
      funext w
      simp [Function.comp, dashBlock_data, CORNER_STR]
    simp only [String.data_join, List.map_cons, List.map_append, List.flatten_cons,
      List.flatten_append, String.data_append, List.map_map, hfun]
    rw [borderCols_data]
    simp [CORNER_STR, NEW_LINE_STR, dashBlock_data]

theorem borderLineStr_data (ws : List Nat) (h0 : 0 < ws.headD 0) :
    (borderLineStr ws).data =
      '+' :: (ws.map (fun w => List.replicate (w + 2) '-' ++ ['+'])).flatten ++ ['\n'] := by
  rw [borderLineStr_eq ws h0]
  have hfun : (String.data ∘ fun w => dashBlock w ++ CORNER_STR) =
      fun w : Nat => List.replicate (w + 2) '-' ++ ['+'] := by
    funext w
    simp [Function.comp, dashBlock_data, CORNER_STR]
  simp only [String.data_append, String.data_join, List.map_map]
  rw [hfun]
  simp [CORNER_STR, NEW_LINE_STR]

theorem textCols_ok (l : List (String × Nat)) (h : ∀ p ∈ l, cellLen p.1 ≤ p.2) :
    textCols l = Except.ok ((l.map (fun p => cellBlockPieces p.1 p.2)).flatten) := by
  induction l with
  | nil => rfl
  | cons p rest ih =>
    have hp := h p (List.mem_cons_self p rest)
    have hrest : ∀ q ∈ rest, cellLen q.1 ≤ q.2 := fun q hq => h q (List.mem_cons_of_mem p hq)
    cases p with
    | mk cell len =>
      simp only [textCols, if_pos hp, ih hrest, List.map_cons, List.flatten_cons]

theorem render_text_line_ok (ws : List Nat) (row : List String)
    (h0 : 0 < ws.headD 0) (hfit : ∀ p ∈ row.zip ws, cellLen p.1 ≤ p.2) :
    render_text_line ws row =
      Except.ok (VERT_BORDER_STR ::
        ((row.zip ws).map (fun p => cellBlockPieces p.1 p.2)).flatten ++ [NEW_LINE_STR]) := by
  cases ws with
  | nil => simp at h0
  | cons w0 rest =>
    have : ¬ w0 = 0 := by simpa using Nat.pos_iff_ne_zero.mp (by simpa using h0)
    simp only [render_text_line, if_neg this, textCols_ok _ hfit]

theorem cellBlockPieces_join (cell : String) (w : Nat) :
    String.join (cellBlockPieces cell w) = cellBlock cell w ++ VERT_BORDER_STR := by
  apply String.ext
  simp [cellBlockPieces, cellBlock, String.data_join, strRepl_data,
    flatten_replicate_single]

theorem textLineOut_eq (ws : List Nat) (row : List String)
    (h0 : 0 < ws.headD 0) (hfit : ∀ p ∈ row.zip ws, cellLen p.1 ≤ p.2) :
    textLineOut ws row =
      VERT_BORDER_STR ++
        String.join ((row.zip ws).map fun p => cellBlock p.1 p.2 ++ VERT_BORDER_STR) ++
        NEW_LINE_STR := by
  rw [textLineOut, render_text_line_ok ws row h0 hfit]
  show String.join _ = _
  rw [join_append, join_cons, join_flatten, List.map_map]
  have : (String.join ∘ fun p : String × Nat => cellBlockPieces p.1 p.2) =
      fun p : String × Nat => cellBlock p.1 p.2 ++ VERT_BORDER_STR := by
    funext p
    exact cellBlockPieces_join p.1 p.2
  rw [this]
  apply String.ext
  simp

/-! ### Composition of `render` from its line renderers -/

theorem getD_eq_of_lt (l : List α) (d : α) (i : Nat) (h : i < l.length) :
    l.getD i d = l.get ⟨i, h⟩ := by
  rw [List.getD_eq_getElem?_getD, List.getElem?_eq_getElem h]
  rfl

theorem widths_fit (data : List (List String)) (ws : List Nat)
    (hw : widths data = some ws) (row : List String) (hrow : row ∈ data) :
    ∀ p ∈ row.zip ws, cellLen p.1 ≤ p.2 := by
  intro p hp
  obtain ⟨i, hi, hget⟩ := List.mem_iff_getElem.mp hp
  have hiw : i < ws.length := by
    simp only [List.length_zip] at hi
    omega
  have hir : i < row.length := by
    simp only [List.length_zip] at hi
    omega
  have hle := widths_cell_le data ws hw row hrow i hiw
  rw [getD_eq_of_lt row "" i hir, getD_eq_of_lt ws 0 i hiw] at hle
  rw [List.getElem_zip] at hget
  rw [← hget]
  simpa using hle

theorem renderRows_eq (ws : List Nat) (data : List (List String))
    (h : ∀ row ∈ data, ∃ ps, render_text_line ws row = Except.ok ps) :
    renderRows ws data =
      Except.ok ((data.map (fun row => textPiecesOf ws row ++ render_border_line ws)).flatten) := by
  induction data with
  | nil => rfl
  | cons row rest ih =>
    obtain ⟨ps, hps⟩ := h row (List.mem_cons_self row rest)
    have hrest := ih fun r hr => h r (List.mem_cons_of_mem row hr)
    simp only [renderRows, hps, hrest, List.map_cons, List.flatten_cons, textPiecesOf]

theorem render_eq (data : List (List String)) (ws : List Nat)
    (hw : widths data = some ws)
    (h : ∀ row ∈ data, ∃ ps, render_text_line ws row = Except.ok ps) :
    render data =
      Except.ok (render_border_line ws ++
        (data.map (fun row => textPiecesOf ws row ++ render_border_line ws)).flatten) := by
  simp [render, hw, renderRows_eq ws data h]

theorem text_line_ok_of_widths (data : List (List String)) (ws : List Nat)
    (hw : widths data = some ws) (row : List String) (hrow : row ∈ data) :
    ∃ ps, render_text_line ws row = Except.ok ps := by
  cases ws with
  | nil => exact ⟨[], rfl⟩
  | cons w0 rest =>
    by_cases h0 : w0 = 0
    · subst h0
      exact ⟨[], rfl⟩
    · exact ⟨_, render_text_line_ok (w0 :: rest) row (by simpa using Nat.pos_of_ne_zero h0)
        (widths_fit data (w0 :: rest) hw row hrow)⟩

/-- Theorem: `render` never hits the underflow panic: for any table whose width pass
succeeds, the output pass succeeds. -/
theorem render_ok_of_widths (data : List (List String)) (ws : List Nat)
    (hw : widths data = some ws) : ∃ ps, render data = Except.ok ps :=
  ⟨_, render_eq data ws hw (text_line_ok_of_widths data ws hw)⟩

/-! ### Newline counting -/

theorem countNewlines_append (s t : String) :
    countNewlines (s ++ t) = countNewlines s + countNewlines t := by
  simp [countNewlines]

theorem countNewlines_border (ws : List Nat) (h0 : 0 < ws.headD 0) :
    countNewlines (borderLineStr ws) = 1 := by
  rw [countNewlines, borderLineStr_data ws h0]
  have hmem : ('\n') ∉ (ws.map (fun w => List.replicate (w + 2) '-' ++ ['+'])).flatten := by
    intro hmem
    rcases List.mem_flatten.mp hmem with ⟨l, hl, hc⟩
    rcases List.mem_map.mp hl with ⟨w, _, rfl⟩
    rcases List.mem_append.mp hc with hc | hc
    · exact absurd (List.eq_of_mem_replicate hc) (by decide)
    · simp at hc
  rw [List.cons_append, List.count_cons_of_ne (by decide), List.count_append,
    List.count_eq_zero.mpr hmem]
  rfl

theorem countNewlines_textLine (ws : List Nat) (row : List String)
    (h0 : 0 < ws.headD 0) (hfit : ∀ p ∈ row.zip ws, cellLen p.1 ≤ p.2)
    (hnl : ∀ cell ∈ row, ('\n') ∉ cell.data) :
    countNewlines (textLineOut ws row) = 1 := by
  rw [textLineOut_eq ws row h0 hfit]
  rw [countNewlines_append, countNewlines_append]
  have h1 : countNewlines VERT_BORDER_STR = 0 := rfl
  have h3 : countNewlines NEW_LINE_STR = 1 := rfl
  have h2 : countNewlines
      (String.join ((row.zip ws).map fun p => cellBlock p.1 p.2 ++ VERT_BORDER_STR)) = 0 := by
    rw [countNewlines, List.count_eq_zero]
    rw [String.data_join]
    intro hmem
    rcases List.mem_flatten.mp hmem with ⟨l, hl, hc⟩
    rw [List.map_map] at hl
    rcases List.mem_map.mp hl with ⟨p, hp, rfl⟩
    simp only [Function.comp, String.data_append, cellBlock_data, VERT_BORDER_STR] at hc
    have hcell : ('\n') ∉ p.1.data := hnl p.1 (List.of_mem_zip hp).1
    rcases List.mem_append.mp hc with hc | hc
    · rcases List.mem_cons.mp hc with hc | hc
      · exact absurd hc (by decide)
      · rcases List.mem_append.mp hc with hc | hc
        · exact hcell hc
        · exact absurd (List.eq_of_mem_replicate hc) (by decide)
    · simp at hc
  omega

theorem countNewlines_rows (ws : List Nat) (data : List (List String))
    (hb : countNewlines (borderLineStr ws) = 1)
    (h : ∀ row ∈ data, countNewlines (String.join (textPiecesOf ws row)) = 1) :
    countNewlines
      (String.join ((data.map (fun row => textPiecesOf ws row ++ render_border_line ws)).flatten)) =
      2 * data.length := by
  induction data with
  | nil => rfl
  | cons row rest ih =>
    have hrow := h row (List.mem_cons_self row rest)
    have hrest := ih fun r hr => h r (List.mem_cons_of_mem row hr)
    simp only [List.map_cons, List.flatten_cons, List.append_assoc]
    rw [join_append, join_append, countNewlines_append, countNewlines_append]
    rw [hrow, hrest]
    have : countNewlines (String.join (render_border_line ws)) = 1 := hb
    rw [this]
    simp [List.length_cons]
    ring

/-! ### Degenerate cases, trailing newline, and the sink model -/

theorem widthsGo_ok (data : List (List String)) :
    ∀ (rowLen : Nat) (acc : List Nat), (∀ row ∈ data, row.length = rowLen) →
      ∃ ws, widthsGo rowLen acc data = some ws := by
  induction data with
  | nil => intro rowLen acc _; exact ⟨acc, rfl⟩
  | cons row rest ih =>
    intro rowLen acc h
    obtain ⟨ws, hws⟩ := ih rowLen (List.zipWith (fun w c => max w (cellLen c)) acc row)
      (fun r hr => h r (List.mem_cons_of_mem row hr))
    refine ⟨ws, ?_⟩
    simp only [widthsGo, if_pos (h row (List.mem_cons_self row rest)).symm]
    exact hws

theorem widths_ok_of_rect (data : List (List String))
    (hrect : ∀ row ∈ data, row.length = (data.headD []).length) :
    ∃ ws, widths data = some ws := by
  cases data with
  | nil => exact ⟨[], rfl⟩
  | cons r0 rest => exact widthsGo_ok (r0 :: rest) r0.length _ (by simpa using hrect)

theorem render_border_line_degenerate (lengths : List Nat)
    (h : lengths = [] ∨ lengths.headD 0 = 0) : render_border_line lengths = [] := by
  cases lengths with
  | nil => rfl
  | cons l0 rest =>
    rcases h with h | h
    · cases h
    · simp only [List.headD_cons] at h
      simp [render_border_line, h]

theorem render_text_line_degenerate (lengths : List Nat) (row : List String)
    (h : lengths = [] ∨ lengths.headD 0 = 0) :
    render_text_line lengths row = Except.ok [] := by
  cases lengths with
  | nil => rfl
  | cons l0 rest =>
    rcases h with h | h
    · cases h
    · simp only [List.headD_cons] at h
      simp [render_text_line, h]

theorem render_degenerate (data : List (List String)) (ws : List Nat)
    (hw : widths data = some ws) (h0 : ws.headD 0 = 0) :
    render data = Except.ok [] ∧ renderOut data = some "" := by
  have hdeg : ws = [] ∨ ws.headD 0 = 0 := Or.inr h0
  have htext : ∀ row ∈ data, ∃ ps, render_text_line ws row = Except.ok ps :=
    fun row _ => ⟨[], render_text_line_degenerate ws row hdeg⟩
  have hrender := render_eq data ws hw htext
  have hpieces :
      (data.map (fun row => textPiecesOf ws row ++ render_border_line ws)).flatten = [] := by
    rw [List.flatten_eq_nil_iff]
    intro l hl
    rcases List.mem_map.mp hl with ⟨row, hrow, rfl⟩
    rw [render_border_line_degenerate ws hdeg, textPiecesOf,
      render_text_line_degenerate ws row hdeg]
    rfl
  rw [hpieces, render_border_line_degenerate ws hdeg] at hrender
  have hr2 : render data = Except.ok [] := by simpa using hrender
  have hjoin : String.join ([] : List String) = "" := rfl
  exact ⟨hr2, by simp [renderOut, hr2, hjoin]⟩

theorem border_pieces_split (ws : List Nat) (h0 : 0 < ws.headD 0) :
    render_border_line ws = (CORNER_STR :: borderCols ws) ++ [NEW_LINE_STR] := by
  cases ws with
  | nil => simp at h0
  | cons w0 rest =>
    rw [render_border_line_nondeg w0 rest (by simpa using h0)]

theorem rows_pieces_ends (ws : List Nat) (h0 : 0 < ws.headD 0) (data : List (List String))
    (hne : data ≠ []) :
    ∃ q, (data.map (fun row => textPiecesOf ws row ++ render_border_line ws)).flatten =
      q ++ [NEW_LINE_STR] := by
  induction data with
  | nil => exact absurd rfl hne
  | cons row rest ih =>
    cases rest with
    | nil =>
      refine ⟨textPiecesOf ws row ++ (CORNER_STR :: borderCols ws), ?_⟩
      simp [border_pieces_split ws h0, List.append_assoc]
    | cons r2 rest2 =>
      obtain ⟨q, hq⟩ := ih (by simp)
      refine ⟨(textPiecesOf ws row ++ render_border_line ws) ++ q, ?_⟩
      simp only [List.map_cons, List.flatten_cons] at hq ⊢
      rw [hq]
      simp [List.append_assoc]

theorem join_singleton (s : String) : String.join [s] = s :=
  String.ext (by simp)

theorem emitAll_ok {ε : Type} (fail : Nat → Option ε) :
    ∀ (ps : List String) (n : Nat) (out : String),
      (∀ k, k < ps.length → fail (n + k) = none) →
      emitAll fail ps n out = (Except.ok (), n + ps.length, out ++ String.join ps) := by
  intro ps
  induction ps with
  | nil => intro n out _; simp [emitAll, String.join]
  | cons s rest ih =>
    intro n out h
    have h0 : fail n = none := by simpa using h 0 (by simp)
    have hrec := ih (n + 1) (out ++ s) (fun k hk => by
      have := h (k + 1) (by simpa using Nat.succ_lt_succ hk)
      rwa [show n + (k + 1) = n + 1 + k by omega] at this)
    simp only [emitAll, h0, hrec, join_cons]
    rw [show n + 1 + rest.length = n + (s :: rest).length by simp; omega,
      String.append_assoc]

theorem emitAll_fail {ε : Type} (fail : Nat → Option ε) :
    ∀ (ps : List String) (n : Nat) (out : String) (k : Nat) (e : ε),
      k < ps.length → fail (n + k) = some e → (∀ j, j < k → fail (n + j) = none) →
      emitAll fail ps n out = (Except.error e, n + k, out ++ String.join (ps.take k)) := by
  intro ps
  induction ps with
  | nil => intro n out k e hk _ _; simp at hk
  | cons s rest ih =>
    intro n out k e hk hf hj
    cases k with
    | zero =>
      have h0 : fail n = some e := by simpa using hf
      simp [emitAll, h0, String.join]
    | succ k =>
      have h0 : fail n = none := by simpa using hj 0 (Nat.succ_pos k)
      have hrec := ih (n + 1) (out ++ s) k e (by simpa using Nat.lt_of_succ_lt_succ hk)
        (by rwa [show n + 1 + k = n + (k + 1) by omega])
        (fun j hjk => by
          have := hj (j + 1) (Nat.succ_lt_succ hjk)
          rwa [show n + (j + 1) = n + 1 + j by omega] at this)
      simp only [emitAll, h0, hrec, List.take_succ_cons, join_cons]
      rw [show n + 1 + k = n + (k + 1) by omega, String.append_assoc]

/-! ### Offsets of corners and vertical borders -/

theorem byteOcc_cons_self (c : Char) (xs : List Char) (n : Nat) :
    byteOcc c (c :: xs) n = n :: byteOcc c xs (n + c.utf8Size) := by
  simp [byteOcc]

theorem byteOcc_cons_ne (c x : Char) (xs : List Char) (n : Nat) (h : x ≠ c) :
    byteOcc c (x :: xs) n = byteOcc c xs (n + x.utf8Size) := by
  simp [byteOcc, h]

theorem byteOcc_append (c : Char) (xs ys : List Char) :
    ∀ n, byteOcc c (xs ++ ys) n = byteOcc c xs n ++ byteOcc c ys (n + String.utf8Len xs) := by
  induction xs with
  | nil => intro n; simp [byteOcc]
  | cons x xs ih =>
    intro n
    rw [List.cons_append]
    by_cases hx : x = c
    · subst hx
      rw [byteOcc_cons_self, byteOcc_cons_self, ih, String.utf8Len_cons]
      rw [show n + x.utf8Size + String.utf8Len xs =
        n + (String.utf8Len xs + x.utf8Size) by omega]
      rfl
    · rw [byteOcc_cons_ne c x _ n hx, byteOcc_cons_ne c x _ n hx, ih, String.utf8Len_cons]
      rw [show n + x.utf8Size + String.utf8Len xs =
        n + (String.utf8Len xs + x.utf8Size) by omega]

theorem byteOcc_not_mem (c : Char) (xs : List Char) (h : c ∉ xs) :
    ∀ n, byteOcc c xs n = [] := by
  induction xs with
  | nil => intro n; rfl
  | cons x xs ih =>
    intro n
    have hx : x ≠ c := fun hx => h (hx ▸ List.mem_cons_self x xs)
    rw [byteOcc_cons_ne c x _ n hx]
    exact ih (fun hm => h (List.mem_cons_of_mem x hm)) _

theorem cornerPos_head (m : Nat) (l : List Nat) :
    cornerPos m l = m :: (cornerPos m l).tail := by
  cases l <;> rfl

theorem byteOcc_borderCols (ws : List Nat) :
    ∀ n, byteOcc '+'
        ((ws.map (fun w => List.replicate (w + 2) '-' ++ ['+'])).flatten ++ ['\n']) (n + 1) =
      (cornerPos n ws).tail := by
  induction ws with
  | nil =>
    intro n
    simp only [List.map_nil, List.flatten_nil, List.nil_append]
    rw [byteOcc_not_mem '+' ['\n'] (by decide)]
    rfl
  | cons w rest ih =>
    intro n
    simp only [List.map_cons, List.flatten_cons, List.append_assoc]
    rw [byteOcc_append, byteOcc_not_mem '+' (List.replicate (w + 2) '-')
      (fun hm => absurd (List.eq_of_mem_replicate hm) (by decide))]
    rw [utf8Len_replicate, show ('-' : Char).utf8Size = 1 by decide, Nat.mul_one]
    rw [List.nil_append, List.singleton_append, byteOcc_cons_self,
      show ('+' : Char).utf8Size = 1 by decide]
    rw [show n + 1 + (w + 2) = (n + w + 3) by omega]
    rw [ih (n + w + 3)]
    exact (cornerPos_head (n + w + 3) rest).symm

theorem border_byteOffsets (ws : List Nat) (h0 : 0 < ws.headD 0) :
    byteOffsets '+' (borderLineStr ws) = cornerPos 0 ws := by
  rw [byteOffsets, borderLineStr_data ws h0, List.cons_append, byteOcc_cons_self,
    show ('+' : Char).utf8Size = 1 by decide]
  rw [show (0 : Nat) + 1 = 0 + 1 by rfl, byteOcc_borderCols ws 0]
  exact (cornerPos_head 0 ws).symm

theorem byteOcc_textBlocks (l : List (String × Nat))
    (h : ∀ p ∈ l, cellLen p.1 ≤ p.2 ∧ ('|') ∉ p.1.data) :
    ∀ n, byteOcc '|'
        ((l.map (fun p => (cellBlock p.1 p.2 ++ VERT_BORDER_STR).data)).flatten ++ ['\n'])
        (n + 1) =
      (cornerPos n (l.map Prod.snd)).tail := by
  induction l with
  | nil =>
    intro n
    simp only [List.map_nil, List.flatten_nil, List.nil_append]
    rw [byteOcc_not_mem '|' ['\n'] (by decide)]
    rfl
  | cons p rest ih =>
    intro n
    obtain ⟨hfit, hpipe⟩ := h p (List.mem_cons_self p rest)
    have hrest := fun q hq => h q (List.mem_cons_of_mem p hq)
    simp only [List.map_cons, List.flatten_cons, List.append_assoc]
    have hblock : (cellBlock p.1 p.2 ++ VERT_BORDER_STR).data =
        (' ' :: (p.1.data ++ List.replicate (p.2 - cellLen p.1 + 1) ' ')) ++ ['|'] := by
      rw [String.data_append, cellBlock_data]
      simp [VERT_BORDER_STR]
    rw [hblock, List.append_assoc]
    rw [byteOcc_append]
    have hnot : ('|') ∉ ' ' :: (p.1.data ++ List.replicate (p.2 - cellLen p.1 + 1) ' ') := by
      intro hm
      rcases List.mem_cons.mp hm with hm | hm
      · exact absurd hm (by decide)
      · rcases List.mem_append.mp hm with hm | hm
        · exact hpipe hm
        · exact absurd (List.eq_of_mem_replicate hm) (by decide)
    rw [byteOcc_not_mem '|' _ hnot]
    have hlen : String.utf8Len (' ' :: (p.1.data ++
        List.replicate (p.2 - cellLen p.1 + 1) ' ')) = p.2 + 2 := by
      simp only [String.utf8Len_cons, String.utf8Len_append, utf8Len_replicate]
      rw [show (' ' : Char).utf8Size = 1 by decide,
        show String.utf8Len p.1.data = cellLen p.1 from (utf8ByteSize_data p.1).symm]
      omega
    rw [hlen, List.nil_append, List.singleton_append, byteOcc_cons_self,
      show ('|' : Char).utf8Size = 1 by decide]
    rw [show n + 1 + (p.2 + 2) = (n + p.2 + 3) by omega]
    rw [ih hrest (n + p.2 + 3)]
    exact (cornerPos_head (n + p.2 + 3) (rest.map Prod.snd)).symm

theorem text_byteOffsets (ws : List Nat) (row : List String) (h0 : 0 < ws.headD 0)
    (hfit : ∀ p ∈ row.zip ws, cellLen p.1 ≤ p.2)
    (hpipe : ∀ cell ∈ row, ('|') ∉ cell.data)
    (hlen : ws.length ≤ row.length) :
    byteOffsets '|' (textLineOut ws row) = cornerPos 0 ws := by
  rw [byteOffsets, textLineOut_eq ws row h0 hfit]
  simp only [String.data_append, String.data_join, List.map_map]
  rw [show NEW_LINE_STR.data = ['\n'] from rfl, show VERT_BORDER_STR.data = ['|'] from rfl]
  rw [show (String.data ∘ fun p : String × Nat => cellBlock p.1 p.2 ++ VERT_BORDER_STR) =
    fun p : String × Nat => (cellBlock p.1 p.2 ++ VERT_BORDER_STR).data from rfl]
  simp only [List.cons_append, List.nil_append]
  rw [byteOcc_cons_self, show ('|' : Char).utf8Size = 1 by decide]
  have hocc := byteOcc_textBlocks (row.zip ws)
    (fun p hp => ⟨hfit p hp, hpipe p.1 (List.of_mem_zip hp).1⟩) 0
  rw [List.map_snd_zip row ws hlen] at hocc
  rw [hocc]
  exact (cornerPos_head 0 ws).symm

/-! ### Remaining helpers -/

theorem getD_map_of_lt {α β : Type} (f : α → β) (l : List α) (i : Nat)
    (h : i < l.length) (d : α) (d2 : β) : (l.map f).getD i d2 = f (l.getD i d) := by
  rw [getD_eq_of_lt (l.map f) d2 i (by simpa using h), getD_eq_of_lt l d i h]
  simp

theorem cell_empty_of_len_zero (s : String) (h : cellLen s = 0) : s = "" := by
  apply String.ext
  have h2 : String.utf8Len s.data = 0 := by
    rw [← utf8ByteSize_data s]
    exact h
  rw [String.utf8Len_eq_zero] at h2
  rw [h2]

theorem join_textPiecesOf (ws : List Nat) (row : List String)
    (ps : List String) (h : render_text_line ws row = Except.ok ps) :
    String.join (textPiecesOf ws row) = textLineOut ws row := by
  rw [textPiecesOf, textLineOut, h, outBytes]

/-! ## Claims -/

/-- Claim C1, counterexample. The claim states that every non-empty rectangular
table with at least one column yields `2N + 1` newline-terminated lines.  The
table `[[""]]` has one row and one column, yet its width vector is `[0]`, the
degenerate guard fires, and `render` writes zero bytes — 0 newlines, not
`2·1 + 1 = 3`. -/
theorem claim1_cex :
    ¬ ∃ s, renderOut [[""]] = some s ∧
      countNewlines s = 2 * List.length [[""]] + 1 := by
  rintro ⟨s, hs, hc⟩
  rw [show renderOut [[""]] = some "" from rfl] at hs
  rw [← Option.some.inj hs] at hc
  exact absurd hc (by decide)

/-- Claim C1, amended. For a rectangular table (cells free of newline
characters): an empty table, a table with zero columns, or a table whose first
column has computed width zero renders as zero bytes; otherwise the output of
`render` consists of exactly `2N + 1` newline-terminated lines, where `N` is
the number of rows. -/
theorem claim1_line_count (data : List (List String))
    (hrect : ∀ row ∈ data, row.length = (data.headD []).length)
    (hnl : ∀ row ∈ data, ∀ cell ∈ row, ('\n') ∉ cell.data) :
    (data = [] → renderOut data = some "") ∧
    ((data.headD []).length = 0 → renderOut data = some "") ∧
    (∀ ws, widths data = some ws → ws.headD 0 = 0 → renderOut data = some "") ∧
    (∀ ws, widths data = some ws → 0 < ws.headD 0 → 1 ≤ data.length →
      ∃ s, renderOut data = some s ∧ countNewlines s = 2 * data.length + 1 ∧
        ∃ t, s = t ++ NEW_LINE_STR) := by
  refine ⟨?_, ?_, ?_, ?_⟩
  · intro h; subst h; rfl
  · intro hcol
    obtain ⟨ws, hw⟩ := widths_ok_of_rect data hrect
    have hlen : ws.length = 0 := by rw [widths_length data ws hw, hcol]
    have hnil : ws = [] := List.eq_nil_of_length_eq_zero hlen
    exact (render_degenerate data ws hw (by simp [hnil])).2
  · intro ws hw h0
    exact (render_degenerate data ws hw h0).2
  · intro ws hw h0 hlen1
    have htext := text_line_ok_of_widths data ws hw
    have hrender := render_eq data ws hw htext
    set body := (data.map (fun row => textPiecesOf ws row ++ render_border_line ws)).flatten
      with hbody
    refine ⟨String.join (render_border_line ws ++ body), by simp [renderOut, hrender], ?_, ?_⟩
    · rw [join_append, countNewlines_append]
      have hb : countNewlines (String.join (render_border_line ws)) = 1 :=
        countNewlines_border ws h0
      have hrows := countNewlines_rows ws data (countNewlines_border ws h0) (by
        intro row hrow
        obtain ⟨ps, hps⟩ := htext row hrow
        rw [join_textPiecesOf ws row ps hps]
        exact countNewlines_textLine ws row h0 (widths_fit data ws hw row hrow)
          (hnl row hrow))
      rw [hb, hbody, hrows]
      omega
    · obtain ⟨q, hq⟩ := rows_pieces_ends ws h0 data
        (by intro h; rw [h] at hlen1; simp at hlen1)
      refine ⟨String.join (render_border_line ws ++ q), ?_⟩
      rw [hbody, hq, ← List.append_assoc, join_append, join_singleton]

/-- Witness for C1 at the two-row table `[["a"], ["b"]]` (widths `[1]`). -/
theorem claim1_witness :
    ∃ s, renderOut [["a"], ["b"]] = some s ∧
      countNewlines s = 2 * List.length [["a"], ["b"]] + 1 ∧
      ∃ t, s = t ++ NEW_LINE_STR := by
  have h := claim1_line_count [["a"], ["b"]] (by decide) (by decide)
  exact h.2.2.2 [1] (by decide) (by decide) (by decide)

/-- Claim C2. For every table (the data model requires all rows to share the
first row's length): zero rows give the empty width vector; otherwise the
width vector has one entry per column of the first row, and entry `i` is the
maximum over all rows of the byte length of the rendered cell in column `i`
(`colMax`). -/
theorem claim2_widths (data : List (List String))
    (hrect : ∀ row ∈ data, row.length = (data.headD []).length) :
    ∃ ws, widths data = some ws ∧
      (data = [] → ws = []) ∧
      ws.length = (data.headD []).length ∧
      ∀ i, i < ws.length → ws.getD i 0 = colMax data i := by
  obtain ⟨ws, hw⟩ := widths_ok_of_rect data hrect
  refine ⟨ws, hw, ?_, widths_length data ws hw, widths_getD data ws hw⟩
  intro h
  subst h
  have : widths ([] : List (List String)) = some [] := rfl
  rw [this] at hw
  exact (Option.some.inj hw).symm

/-- Witness for C2 at `[["ab", "c"], ["d", "efg"]]` (widths `[2, 3]`). -/
theorem claim2_witness :
    ∃ ws, widths [["ab", "c"], ["d", "efg"]] = some ws ∧
      ([["ab", "c"], ["d", "efg"]] = ([] : List (List String)) → ws = []) ∧
      ws.length = (List.headD [["ab", "c"], ["d", "efg"]] []).length ∧
      ∀ i, i < ws.length → ws.getD i 0 = colMax [["ab", "c"], ["d", "efg"]] i :=
  claim2_widths [["ab", "c"], ["d", "efg"]] (by decide)

/-- Claim C3, counterexample. The claim measures the cell block in characters.
With the two-byte, one-character cell `"é"` and width vector `[2]` the content
line is `"| é |\n"` (6 characters) while the border line is `"+----+\n"`
(7 characters): the block between the delimiters spans `w + 2` bytes, not
`w + 2` characters, so the lines do not have equal character length as the
claim implies. -/
theorem claim3_cex :
    cellLen "é" ≤ 2 ∧ 0 < List.headD [2] 0 ∧
    textLineOut [2] ["é"] = "| é |\n" ∧
    borderLineStr [2] = "+----+\n" ∧
    (textLineOut [2] ["é"]).length ≠ (borderLineStr [2]).length := by
  refine ⟨by decide, by decide, rfl, rfl, by decide⟩

/-- Claim C3, amended. For every non-degenerate width vector and every row
paired with it whose cells fit their widths (which `render` guarantees), the
content line is the vertical border followed by one block plus delimiter per
zipped column and a newline; each block is one space, the cell text, and
`w - len + 1` trailing spaces, and occupies exactly `w + 2` **bytes**,
matching the `w + 2` dash characters (`w + 2` bytes) of the same column in
border lines. -/
theorem claim3_blocks (ws : List Nat) (row : List String)
    (h0 : 0 < ws.headD 0)
    (hfit : ∀ p ∈ row.zip ws, cellLen p.1 ≤ p.2) :
    textLineOut ws row =
      VERT_BORDER_STR ++
        String.join ((row.zip ws).map fun p => cellBlock p.1 p.2 ++ VERT_BORDER_STR) ++
        NEW_LINE_STR ∧
    ∀ p ∈ row.zip ws,
      cellBlock p.1 p.2 = SPACE_STR ++ p.1 ++ strRepl (p.2 - cellLen p.1 + 1) SPACE_STR ∧
      (cellBlock p.1 p.2).utf8ByteSize = p.2 + 2 ∧
      (dashBlock p.2).data = List.replicate (p.2 + 2) '-' ∧
      (dashBlock p.2).utf8ByteSize = p.2 + 2 :=
  ⟨textLineOut_eq ws row h0 hfit,
   fun p hp => ⟨rfl, cellBlock_byteSize p.1 p.2 (hfit p hp), dashBlock_data p.2,
     dashBlock_byteSize p.2⟩⟩

/-- Witness for C3 at widths `[2, 1]` and row `["ab", "c"]`. -/
theorem claim3_witness :
    textLineOut [2, 1] ["ab", "c"] =
      VERT_BORDER_STR ++
        String.join (((["ab", "c"] : List String).zip [2, 1]).map
          fun p => cellBlock p.1 p.2 ++ VERT_BORDER_STR) ++
        NEW_LINE_STR ∧
    ∀ p ∈ (["ab", "c"] : List String).zip [2, 1],
      cellBlock p.1 p.2 = SPACE_STR ++ p.1 ++ strRepl (p.2 - cellLen p.1 + 1) SPACE_STR ∧
      (cellBlock p.1 p.2).utf8ByteSize = p.2 + 2 ∧
      (dashBlock p.2).data = List.replicate (p.2 + 2) '-' ∧
      (dashBlock p.2).utf8ByteSize = p.2 + 2 :=
  claim3_blocks [2, 1] ["ab", "c"] (by decide) (by decide)

/-- Claim C4. For every non-degenerate width vector, the border line is a corner
followed by, per column, `w + 2` dashes and a corner, terminated by a newline;
excluding the newline its length is `1 + Σ (w_i + 3)` characters.  (The
function takes only the widths, so the line is independent of cell content.) -/
theorem claim4_border (ws : List Nat) (h0 : 0 < ws.headD 0) :
    ∃ t, borderLineStr ws = t ++ NEW_LINE_STR ∧
      t = CORNER_STR ++ String.join (ws.map fun w => dashBlock w ++ CORNER_STR) ∧
      t.length = 1 + (ws.map fun w => w + 3).sum := by
  refine ⟨CORNER_STR ++ String.join (ws.map fun w => dashBlock w ++ CORNER_STR),
    borderLineStr_eq ws h0, rfl, ?_⟩
  have hfun : (String.data ∘ fun w => dashBlock w ++ CORNER_STR) =
      fun w : Nat => List.replicate (w + 2) '-' ++ ['+'] := by
    funext w
    simp [Function.comp, dashBlock_data, CORNER_STR]
  have hdata : (CORNER_STR ++ String.join (ws.map fun w => dashBlock w ++ CORNER_STR)).data =
      '+' :: (ws.map (fun w => List.replicate (w + 2) '-' ++ ['+'])).flatten := by
    simp only [String.data_append, String.data_join, List.map_map]
    rw [hfun]
    simp [CORNER_STR]
  rw [str_length_data, hdata]
  have hlenfun : (List.length ∘ fun w : Nat => List.replicate (w + 2) '-' ++ ['+']) =
      fun w : Nat => w + 3 := by
    funext w
    simp [List.length_append, List.length_replicate]
  simp only [List.length_cons, List.length_flatten, List.map_map, hlenfun]
  omega

/-- Witness for C4 at widths `[6, 5]`: the border line is
`"+--------+-------+\n"`, of length `18 + 1`. -/
theorem claim4_witness :
    ∃ t, borderLineStr [6, 5] = t ++ NEW_LINE_STR ∧
      t = CORNER_STR ++ String.join (([6, 5] : List Nat).map fun w => dashBlock w ++ CORNER_STR) ∧
      t.length = 1 + (([6, 5] : List Nat).map fun w => w + 3).sum :=
  claim4_border [6, 5] (by decide)

/-- Claim C5. If the width vector is empty or its first entry is zero, both line
renderers write nothing and return success (the text-line renderer returns
`Except.ok`, i.e. it cannot panic in this case). -/
theorem claim5_degenerate (lengths : List Nat) (row : List String)
    (h : lengths = [] ∨ lengths.headD 0 = 0) :
    render_border_line lengths = [] ∧ render_text_line lengths row = Except.ok [] :=
  ⟨render_border_line_degenerate lengths h, render_text_line_degenerate lengths row h⟩

/-- Witness for C5 at widths `[0, 3]` and row `["x"]`. -/
theorem claim5_witness :
    render_border_line [0, 3] = [] ∧ render_text_line [0, 3] ["x"] = Except.ok [] :=
  claim5_degenerate [0, 3] ["x"] (Or.inr rfl)

/-- Claim C6. A ragged table makes `widths` panic (`none`), so `render` aborts
abnormally (`Except.error`) having written zero payloads: the structural check
runs in the width pass, which completes before any output is emitted. -/
theorem claim6_ragged (data : List (List String))
    (h : ∃ row ∈ data, row.length ≠ (data.headD []).length) :
    widths data = none ∧ render data = Except.error [] ∧ outBytes (render data) = "" := by
  obtain ⟨row, hrow, hne⟩ := h
  cases data with
  | nil => simp at hrow
  | cons r0 rest =>
    have hw : widths (r0 :: rest) = none := by
      simp only [widths]
      exact widthsGo_ragged (r0 :: rest) r0.length _ row hrow (by simpa using hne)
    refine ⟨hw, ?_, ?_⟩
    · simp [render, hw]
    · simp only [render, hw, outBytes]
      rfl

/-- Witness for C6 at the ragged table `[["a"], ["b", "c"]]`. -/
theorem claim6_witness :
    widths [["a"], ["b", "c"]] = none ∧
    render [["a"], ["b", "c"]] = Except.error [] ∧
    outBytes (render [["a"], ["b", "c"]]) = "" :=
  claim6_ragged [["a"], ["b", "c"]] ⟨["b", "c"], by decide, by decide⟩

/-- Claim C7. When `render_text_line` is reached from `render` with the widths of
the same table, every cell is at most its column width, so the padding
subtraction `len - string_buf.len()` never underflows: every text line and the
whole render return `Except.ok` (the panic branch is unreachable). -/
theorem claim7_no_underflow (data : List (List String)) (ws : List Nat)
    (hw : widths data = some ws) :
    (∀ row ∈ data, ∀ p ∈ row.zip ws, cellLen p.1 ≤ p.2) ∧
    (∀ row ∈ data, ∃ ps, render_text_line ws row = Except.ok ps) ∧
    (∃ ps, render data = Except.ok ps) :=
  ⟨fun row hrow => widths_fit data ws hw row hrow,
   text_line_ok_of_widths data ws hw,
   render_ok_of_widths data ws hw⟩

/-- Witness for C7 at `[["ab"], ["c"]]` (widths `[2]`). -/
theorem claim7_witness :
    (∀ row ∈ [["ab"], ["c"]], ∀ p ∈ row.zip [2], cellLen p.1 ≤ p.2) ∧
    (∀ row ∈ [["ab"], ["c"]], ∃ ps, render_text_line [2] row = Except.ok ps) ∧
    (∃ ps, render [["ab"], ["c"]] = Except.ok ps) :=
  claim7_no_underflow [["ab"], ["c"]] [2] (by decide)

/-- Claim C8. For a rectangular table `render` succeeds against an infallible
sink; against a fallible sink it returns unit when every write succeeds, and
otherwise returns the sink's error from the first failing write unchanged,
with exactly the payloads before that write delivered (no further writes). -/
theorem claim8_sink {ε : Type} (data : List (List String))
    (hrect : ∀ row ∈ data, row.length = (data.headD []).length) :
    ∃ ps, render data = Except.ok ps ∧
      ∀ fail : Nat → Option ε,
        ((∀ k, k < ps.length → fail k = none) →
          renderToSink fail data = some (Except.ok (), ps.length, String.join ps)) ∧
        (∀ k e, k < ps.length → fail k = some e → (∀ j, j < k → fail j = none) →
          renderToSink fail data = some (Except.error e, k, String.join (ps.take k))) := by
  obtain ⟨ws, hw⟩ := widths_ok_of_rect data hrect
  obtain ⟨ps, hps⟩ := render_ok_of_widths data ws hw
  refine ⟨ps, hps, fun fail => ⟨?_, ?_⟩⟩
  · intro hall
    simp only [renderToSink, hps]
    rw [emitAll_ok fail ps 0 "" (fun k hk => by simpa using hall k hk)]
    simp
  · intro k e hk hf hj
    simp only [renderToSink, hps]
    rw [emitAll_fail fail ps 0 "" k e hk (by simpa using hf)
      (fun j hjk => by simpa using hj j hjk)]
    simp

/-- Witness for C8 at `[["a"]]` (17 write payloads): the all-success sink
returns unit with the full output, and a sink failing with error `7` on write
call 2 surfaces `7` with only the first two payloads (`"+-"`) written. -/
theorem claim8_witness :
    renderToSink (fun _ : Nat => (none : Option Nat)) [["a"]] =
      some (Except.ok (), 17, "+---+\n| a |\n+---+\n") ∧
    renderToSink (fun i : Nat => if i = 2 then (some 7 : Option Nat) else none) [["a"]] =
      some (Except.error 7, 2, "+-") := by
  obtain ⟨ps, hps, h⟩ := claim8_sink (ε := Nat) [["a"]] (by decide)
  have hlist : render [["a"]] = Except.ok
      ["+", "-", "-", "-", "+", "\n", "|", " a", " ", "|", "\n",
       "+", "-", "-", "-", "+", "\n"] := rfl
  rw [hlist] at hps
  have hps2 : ps = ["+", "-", "-", "-", "+", "\n", "|", " a", " ", "|", "\n",
      "+", "-", "-", "-", "+", "\n"] := (Except.ok.inj hps).symm
  subst hps2
  constructor
  · have hall := (h (fun _ => none)).1 (fun k _ => rfl)
    exact hall
  · have hfail := (h (fun i => if i = 2 then some 7 else none)).2 2 7 (by decide)
      (by decide) (fun j hj => by rw [if_neg (by omega : ¬ j = 2)])
    exact hfail

/-- Claim C9, counterexample. The claim asserts the `|` separators of content
lines sit at the same **character** offsets as the `+` corners of border
lines.  For the table `[["é"]]` (one two-byte character, width 2) the content
line `"| é |\n"` has its separators at character offsets 0 and 4 while the
border `"+----+\n"` has corners at character offsets 0 and 5. -/
theorem claim9_cex :
    widths [["é"]] = some [2] ∧
    renderOut [["é"]] = some "+----+\n| é |\n+----+\n" ∧
    charOffsets '|' (textLineOut [2] ["é"]) = [0, 4] ∧
    charOffsets '+' (borderLineStr [2]) = [0, 5] ∧
    charOffsets '|' (textLineOut [2] ["é"]) ≠ charOffsets '+' (borderLineStr [2]) := by
  refine ⟨rfl, rfl, rfl, rfl, by decide⟩

/-- Claim C9, amended. For every table whose width pass succeeds with a
non-degenerate width vector and whose cells contain no `|` character, the `|`
separators of every content line occur at exactly the same **byte** offsets as
the `+` corners of the (identical) border lines above and below it. -/
theorem claim9_offsets (data : List (List String)) (ws : List Nat)
    (hw : widths data = some ws) (h0 : 0 < ws.headD 0)
    (hpipe : ∀ row ∈ data, ∀ cell ∈ row, ('|') ∉ cell.data) :
    ∀ row ∈ data,
      byteOffsets '|' (textLineOut ws row) = byteOffsets '+' (borderLineStr ws) := by
  intro row hrow
  have hlen : ws.length ≤ row.length := by
    rw [widths_rect data ws hw row hrow, ← widths_length data ws hw]
  rw [text_byteOffsets ws row h0 (widths_fit data ws hw row hrow) (hpipe row hrow) hlen,
    border_byteOffsets ws h0]

/-- Witness for C9 at `[["a", "bc"]]` (widths `[1, 2]`). -/
theorem claim9_witness :
    byteOffsets '|' (textLineOut [1, 2] ["a", "bc"]) =
      byteOffsets '+' (borderLineStr [1, 2]) :=
  claim9_offsets [["a", "bc"]] [1, 2] (by decide) (by decide) (by decide)
    ["a", "bc"] (by decide)

/-- Claim C10. The degenerate guard looks only at the first width: if the width
vector has a positive first entry but entry `i = 0` for some later column
(all of whose cells therefore render empty), `render` still emits everything,
the border renders column `i` as two dashes, and every content line renders
column `i` as two spaces. -/
theorem claim10_zero_column (data : List (List String)) (ws : List Nat)
    (hw : widths data = some ws) (h0 : 0 < ws.headD 0)
    (i : Nat) (hi : i < ws.length) (hzero : ws.getD i 0 = 0) :
    (∃ ps, render data = Except.ok ps ∧ ps ≠ []) ∧
    borderLineStr ws =
      CORNER_STR ++ String.join (ws.map fun w => dashBlock w ++ CORNER_STR) ++ NEW_LINE_STR ∧
    (ws.map dashBlock).getD i "" = "--" ∧
    ∀ row ∈ data,
      textLineOut ws row =
        VERT_BORDER_STR ++
          String.join ((row.zip ws).map fun p => cellBlock p.1 p.2 ++ VERT_BORDER_STR) ++
          NEW_LINE_STR ∧
      ((row.zip ws).map fun p => cellBlock p.1 p.2).getD i "" = "  " := by
  refine ⟨?_, borderLineStr_eq ws h0, ?_, ?_⟩
  · have htext := text_line_ok_of_widths data ws hw
    have hrender := render_eq data ws hw htext
    refine ⟨_, hrender, ?_⟩
    rw [border_pieces_split ws h0]
    simp
  · rw [getD_map_of_lt dashBlock ws i hi 0 "", hzero]
    rfl
  · intro row hrow
    have hfit := widths_fit data ws hw row hrow
    have hrl : row.length = ws.length := by
      rw [widths_rect data ws hw row hrow, ← widths_length data ws hw]
    refine ⟨textLineOut_eq ws row h0 hfit, ?_⟩
    have hzip : i < (row.zip ws).length := by
      simp only [List.length_zip]
      omega
    rw [getD_map_of_lt _ (row.zip ws) i hzip ("", 0) ""]
    have hzi : (row.zip ws).getD i ("", 0) = (row.getD i "", ws.getD i 0) := by
      rw [getD_eq_of_lt _ _ i hzip, getD_eq_of_lt row "" i (by omega),
        getD_eq_of_lt ws 0 i hi]
      simp [List.get_eq_getElem, List.getElem_zip]
    have hcell : row.getD i "" = "" :=
      cell_empty_of_len_zero _ (Nat.le_zero.mp
        (hzero ▸ widths_cell_le data ws hw row hrow i hi))
    rw [hzi, hzero, hcell]
    rfl

/-- Witness for C10 at `[["a", ""], ["b", ""]]` (widths `[1, 0]`, column 1
entirely empty). -/
theorem claim10_witness :
    (∃ ps, render [["a", ""], ["b", ""]] = Except.ok ps ∧ ps ≠ []) ∧
    borderLineStr [1, 0] =
      CORNER_STR ++ String.join (([1, 0] : List Nat).map fun w => dashBlock w ++ CORNER_STR) ++
        NEW_LINE_STR ∧
    (([1, 0] : List Nat).map dashBlock).getD 1 "" = "--" ∧
    ∀ row ∈ [["a", ""], ["b", ""]],
      textLineOut [1, 0] row =
        VERT_BORDER_STR ++
          String.join ((row.zip [1, 0]).map fun p => cellBlock p.1 p.2 ++ VERT_BORDER_STR) ++
          NEW_LINE_STR ∧
      ((row.zip [1, 0]).map fun p => cellBlock p.1 p.2).getD 1 "" = "  " :=
  claim10_zero_column [["a", ""], ["b", ""]] [1, 0] (by decide) (by decide) 1
    (by decide) (by decide)

example : widths [["single", "line"], ["second", "lines"]] = some [6, 5] := by decide

example :
    renderOut [["single", "line"], ["second", "lines"]] =
      some "+--------+-------+\n| single | line  |\n+--------+-------+\n| second | lines |\n+--------+-------+\n" := by
  rfl

example : renderOut [] = some "" := rfl

example : renderOut [[]] = some "" := rfl

example : renderOut [[""]] = some "" := rfl

example : render [["a"], ["b", "c"]] = Except.error [] := rfl

end TextTables
